import Mathlib

/-!
Verification of the experiment capture-and-archival engine of `logrun`
(`src/logrun/internals.py`, with the construction-time variant from
`src/exlog/internals.py`).

The shallow embedding models:
* Python `dict` state (`extra_keys`, `multiple`) as insertion-ordered
  association lists plus a total boolean map;
* stored Python objects as `PVal` (an opaque base object or a Python list),
  since `add_extra_key` wraps old values into fresh lists and appends to them;
* the `Experiment` record and its mutators `add_output_file`,
  `add_input_file`, `add_extra_key`;
* the xxh3 hash state as the ghost sequence of absorbed bytes (the digest of
  the real hash is a pure function of the absorbed stream, so equal streams
  give equal digests, and distinct streams model distinct hash states);
* `eval_checksum` over an explicit file-tree snapshot, with the
  available-memory/chunking branch of the source;
* `save_experiment` as a pure function from the experiment state, the
  environment root and a filesystem snapshot to either an error or the list
  of filesystem operations it performs, in source order.
-/

namespace Logrun

/-- A Python object stored in `extra_keys`: either an opaque base object or a
Python list of objects (`add_extra_key` builds and appends to such lists). -/
inductive PVal (α : Type) where
  | base (a : α)
  | plist (l : List (PVal α))

/-- Lookup in an insertion-ordered association list, modelling `d[k]` /
`k in d` on a Python `dict`. -/
def dictLookup {β : Type} : List (String × β) → String → Option β
  | [], _ => none
  | (k', v) :: d, k => if k = k' then some v else dictLookup d k

/-- Assignment `d[k] = v` on a Python `dict`: replace in place if the key is
present, otherwise append at the end (Python dicts preserve insertion order). -/
def dictSet {β : Type} : List (String × β) → String → β → List (String × β)
  | [], k, v => [(k, v)]
  | (k', v') :: d, k, v => if k' = k then (k, v) :: d else (k', v') :: dictSet d k v

/-- Pointwise update of a total boolean map, modelling `multiple[k] = b`. -/
def fupd (f : String → Bool) (k : String) (b : Bool) : String → Bool :=
  fun k' => if k' = k then b else f k'

/-- The `Experiment` aggregate of `src/logrun/internals.py`. The two capture
files are kept as opaque path strings; `multiple` defaults to `false` outside
the keys of `extra_keys` (the source only ever reads `multiple[key]` for keys
present in `extra_keys`, and writes both together). -/
structure Experiment (α : Type) where
  uuid : String
  has_content : Bool
  output_files : List String
  input_files : List String
  extra_keys : List (String × PVal α)
  multiple : String → Bool
  stdout_file : String
  stderr_file : String

/-- `Experiment.__init__` of the `logrun` variant: it generates a uuid and
creates the two capture temp files, and does not consult any environment
variable (the `LOGRUN_ROOT` lookup happens only inside `save_experiment`). -/
def Experiment.init (α : Type) (u so se : String) : Experiment α :=
  { uuid := u
    has_content := false
    output_files := []
    input_files := []
    extra_keys := []
    multiple := fun _ => false
    stdout_file := so
    stderr_file := se }

/-- `Experiment.add_output_file`. -/
def Experiment.add_output_file {α : Type} (s : Experiment α) (path : String) : Experiment α :=
  { s with has_content := true, output_files := s.output_files ++ [path] }

/-- `Experiment.add_input_file`. -/
def Experiment.add_input_file {α : Type} (s : Experiment α) (path : String) : Experiment α :=
  { s with has_content := true, input_files := s.input_files ++ [path] }

/-- `Experiment.add_extra_key`. The `multiple=true, non-list` branch is
unreachable through the API (the source would raise `AttributeError` on
`.append`); it is modelled as leaving the state unchanged. -/
def Experiment.add_extra_key {α : Type} (s : Experiment α) (key : String) (value : PVal α)
    (overwrite : Bool := true) : Experiment α :=
  let s' : Experiment α := { s with has_content := true }
  match dictLookup s'.extra_keys key with
  | some old =>
    if overwrite then
      { s' with extra_keys := dictSet s'.extra_keys key value
                multiple := fupd s'.multiple key false }
    else
      if s'.multiple key then
        match old with
        | PVal.plist xs =>
            { s' with extra_keys := dictSet s'.extra_keys key (PVal.plist (xs ++ [value])) }
        | PVal.base _ => s'
      else
        { s' with multiple := fupd s'.multiple key true
                  extra_keys := dictSet s'.extra_keys key (PVal.plist [old, value]) }
  | none =>
      { s' with extra_keys := dictSet s'.extra_keys key value
                multiple := fupd s'.multiple key false }

/-- One call to `add_extra_key`, as performed by callers during a run. -/
structure ExtraCall (α : Type) where
  key : String
  value : PVal α
  overwrite : Bool

/-- Run a sequence of `add_extra_key` calls left to right. -/
def runCalls {α : Type} (s : Experiment α) : List (ExtraCall α) → Experiment α
  | [] => s
  | c :: cs => runCalls (s.add_extra_key c.key c.value c.overwrite) cs

/-- Number of `false → true` flips of `multiple[k]` along a call sequence. -/
def transCount {α : Type} (k : String) (s : Experiment α) : List (ExtraCall α) → Nat
  | [] => 0
  | c :: cs =>
    (if s.multiple k = false ∧ (s.add_extra_key c.key c.value c.overwrite).multiple k = true
      then 1 else 0)
      + transCount k (s.add_extra_key c.key c.value c.overwrite) cs

/-- The values registered for key `k` by a call sequence, in order. -/
def keyVals {α : Type} (k : String) : List (ExtraCall α) → List (PVal α)
  | [] => []
  | c :: cs => if c.key = k then c.value :: keyVals k cs else keyVals k cs

/-- The `(extra_keys[k], multiple[k])` pair that non-overwriting registrations
of the values `vs` produce: nothing, a single scalar, or the ordered list. -/
def keyState {α : Type} : List (PVal α) → Option (PVal α) × Bool
  | [] => (none, false)
  | [v] => (some v, false)
  | v1 :: v2 :: vs => (some (PVal.plist (v1 :: v2 :: vs)), true)

/-- `xxhash.xxh3_64().block_size`, the floor used for the streaming chunk
size in `eval_checksum`. -/
def block_size : Nat := 64

/-- Ghost model of the xxh3_64 hash state: the sequence of bytes absorbed so
far. -/
structure HashState where
  acc : List UInt8

/-- `state.update(bs)`: absorb a byte string. -/
def HashState.update (st : HashState) (bs : List UInt8) : HashState :=
  ⟨st.acc ++ bs⟩

/-- `state.hexdigest()`: the digest is a pure function of the absorbed byte
stream, modelled by the stream itself. -/
def HashState.hexdigest (st : HashState) : List UInt8 :=
  st.acc

/-- The `while True: chunk = file.read(chunksize)` loop of `eval_checksum`,
with explicit fuel (any fuel beyond the file length suffices): an empty chunk
breaks the loop, otherwise the chunk is absorbed and the loop continues on
the remaining bytes. -/
def updateChunks (chunksize : Nat) : Nat → List UInt8 → HashState → HashState
  | 0, _, st => st
  | fuel + 1, content, st =>
    if content.take chunksize = [] then st
    else updateChunks chunksize fuel (content.drop chunksize)
           (st.update (content.take chunksize))

/-- The regular-file branch of `eval_checksum`: a single whole-file read when
`10 * filesize <= available_memory`, otherwise chunked reads of
`max(available_memory // 10, state.block_size)` bytes. The second component
records whether the single-read strategy was chosen. -/
def evalFileBytes (content : List UInt8) (available_memory : Nat) (st : HashState) :
    HashState × Bool :=
  if 10 * content.length ≤ available_memory then
    (st.update content, true)
  else
    (updateChunks (max (available_memory / 10) block_size) (content.length + 1) content st,
     false)

/-- A filesystem entry as `eval_checksum` consults it: a regular file with
its byte content, or a directory with its children in `os.listdir` order. -/
inductive FTree where
  | file (content : List UInt8)
  | dir (children : List (String × FTree))

mutual

/-- The recursion of `eval_checksum` on an existing path: a file's bytes are
absorbed (memory-strategy branch included); a directory recurses over its
children in listing order with `digest=False`. Child names are never
absorbed. -/
def evalTree (avail : Nat) : FTree → HashState → HashState
  | FTree.file content, st => (evalFileBytes content avail st).1
  | FTree.dir children, st => evalChildren avail children st

/-- The `for child in os.listdir(path)` fold of `eval_checksum`. -/
def evalChildren (avail : Nat) : List (String × FTree) → HashState → HashState
  | [], st => st
  | (_, t) :: rest, st => evalChildren avail rest (evalTree avail t st)

end

/-- `eval_checksum(path)` with a fresh state and `digest=True`. The path is
given by what it resolves to in the filesystem snapshot: `none` when it is
neither an existing regular file nor an existing directory, in which case
both branches are skipped, no error is raised, and the digest of the
never-updated state is returned. -/
def eval_checksum (avail : Nat) (entry : Option FTree) : List UInt8 :=
  (match entry with
   | some t => evalTree avail t ⟨[]⟩
   | none => (⟨[]⟩ : HashState)).hexdigest

/-- A filesystem snapshot: what each path resolves to (`none`: no such path).
Path strings are treated opaquely (`abspath`/`realpath` are the identity in
the model). -/
def FS : Type := String → Option FTree

/-- `os.path.exists`. -/
def fsExists (fs : FS) (p : String) : Bool := (fs p).isSome

/-- `os.path.join`. -/
def pjoin (a b : String) : String := a ++ "/" ++ b

/-- `path.replace(os.sep, '%')` with `os.sep = '/'`: the path-to-filename
escaping used for source files, output files and input files. -/
def escapeSep (p : String) : String :=
  ⟨p.data.map (fun ch => if ch = '/' then '%' else ch)⟩

/-- `str(n)`: the decimal digit characters of `n`. -/
def decChars (n : Nat) : List Char :=
  if n < 10 then [Nat.digitChar n]
  else decChars (n / 10) ++ [Nat.digitChar (n % 10)]
decreasing_by exact Nat.div_lt_self (by omega) (by omega)

/-- `('%0{width}d' % k)` on the digit characters of `k`: pad with leading
zeros up to `width` (no truncation when already at least that long). -/
def zeroPad (width : Nat) (ds : List Char) : List Char :=
  List.replicate (width - ds.length) '0' ++ ds

/-- The expanded entry names of a multiple key with `n` elements:
`base_key + ('.%0{len(str(n))}d') % k` for `k in range(n)`. -/
def expandKeyNames (base : String) (n : Nat) : List String :=
  (List.range n).map (fun k =>
    base ++ "." ++ String.mk (zeroPad (decChars n).length (decChars k)))

/-- The `keyvals` dictionary built by `save_experiment` for one `extra_keys`
item: a multiple key expands into one (name, element) pair per stored
element; a single key stays as itself. A multiple key always stores a list
(the source would raise on `len` otherwise); that unreachable case is
modelled as empty. -/
def entryPairs {α : Type} (e : Experiment α) (base : String) (v : PVal α) :
    List (String × PVal α) :=
  if e.multiple base then
    match v with
    | PVal.plist xs => List.zip (expandKeyNames base xs.length) xs
    | PVal.base _ => []
  else [(base, v)]

/-- Proof support: the numeric value of a decimal digit character. -/
def digitVal (ch : Char) : Nat := ch.toNat - 48

/-- Proof support: a character produced by `str` for one decimal digit. -/
def isDigitCh (ch : Char) : Prop := ∃ d, d < 10 ∧ ch = Nat.digitChar d

/-- Proof support: the numeric value of a most-significant-first decimal
digit string. -/
def valD : List Char → Nat
  | [] => 0
  | c :: cs => digitVal c * 10 ^ cs.length + valD cs

/-- `isinstance(value, Artifact)`: Python lists are never artifacts; whether
an opaque base object is one is decided by the supplied classifier. -/
def PVal.isArtifact {α : Type} (isArt : α → Bool) : PVal α → Bool
  | PVal.base a => isArt a
  | PVal.plist _ => false

/-- One observable filesystem/console action of `save_experiment`, in
program order. -/
inductive FSOp where
  | printMsg (msg : String)
  | ensureDir (path : String)
  | snapshotSources (dest : String)
  | writeMeta (path : String)
  | copyFile (src dst : String)
  | warnMissingOutput (path : String)
  | symlinkOp (target link : String)
  | writeInputIndex (path : String) (entries : List (String × List UInt8))
  | writeExtraKey (path : String)
  | writeArtifactRead (path : String)
  | makeTarGz (srcdir tar : String)
  | removeTree (path : String)
  | removeFile (path : String)
deriving DecidableEq

/-- `Experiment._cleanup`: remove each capture file if it exists. -/
def cleanupOps {α : Type} (e : Experiment α) (fs : FS) : List FSOp :=
  (if fsExists fs e.stdout_file then [FSOp.removeFile e.stdout_file] else []) ++
  (if fsExists fs e.stderr_file then [FSOp.removeFile e.stderr_file] else [])

/-- The per-output-file loop of `save_experiment`: warn and skip a missing
file, otherwise copy it (escaped) into `output_files/` and create the
timestamped reverse-lookup symlink to the archive. -/
def outputOps {α : Type} (e : Experiment α) (fs : FS) (out_path by_out targz ts : String) :
    List FSOp :=
  e.output_files.flatMap (fun f =>
    if fsExists fs f = false then [FSOp.warnMissingOutput f]
    else
      [FSOp.copyFile f (pjoin out_path (escapeSep f)),
       FSOp.ensureDir (pjoin by_out (escapeSep f)),
       FSOp.symlinkOp targz (pjoin (pjoin by_out (escapeSep f)) (ts ++ "." ++ e.uuid))])

/-- The input-checksum index written to `input_files.pickle`: each declared
input path mapped to `eval_checksum` of what it currently resolves to. -/
def inputIndexEntries {α : Type} (e : Experiment α) (fs : FS) (avail : Nat) :
    List (String × List UInt8) :=
  e.input_files.map (fun p => (p, eval_checksum avail (fs p)))

/-- The per-input-file loop: a reverse-lookup symlink for each input path. -/
def inputSymlinkOps {α : Type} (e : Experiment α) (by_in targz ts : String) : List FSOp :=
  e.input_files.flatMap (fun p =>
    [FSOp.ensureDir (pjoin by_in (escapeSep p)),
     FSOp.symlinkOp targz (pjoin (pjoin by_in (escapeSep p)) (ts ++ "." ++ e.uuid))])

/-- The extra-keys loop: each expanded (name, value) pair is persisted under
`extra_keys/`; artifact values additionally get a paired `.read` blob. -/
def extraKeyOps {α : Type} (isArt : α → Bool) (e : Experiment α) (ek_path : String) :
    List FSOp :=
  e.extra_keys.flatMap (fun bv =>
    (entryPairs e bv.1 bv.2).flatMap (fun nv =>
      if PVal.isArtifact isArt nv.2 then
        [FSOp.writeExtraKey (pjoin ek_path nv.1),
         FSOp.writeArtifactRead (pjoin ek_path nv.1 ++ ".read")]
      else [FSOp.writeExtraKey (pjoin ek_path nv.1)]))

/-- The archival operations that precede the capture-file copies: the banner
print, directory creation, the module-source snapshot and the metadata
write. The source snapshot loop and the metadata collection are single
opaque operations (their inputs are process state outside this model). -/
def preCopyOps {α : Type} (e : Experiment α) (root : String) : List FSOp :=
  let experiment_path := pjoin (pjoin root "all_experiments") e.uuid
  [FSOp.printMsg ("[Saving experiment: " ++ e.uuid ++ "]"),
   FSOp.ensureDir experiment_path,
   FSOp.ensureDir (pjoin root "experiments_by_output_file"),
   FSOp.ensureDir (pjoin root "experiments_by_input_file"),
   FSOp.ensureDir (pjoin experiment_path "source"),
   FSOp.snapshotSources (pjoin experiment_path "source"),
   FSOp.writeMeta (pjoin experiment_path "meta.pickle")]

/-- The archival operations that follow the capture-file copies: the
output-file loop, the input-checksum index and symlinks, the extra-key
writes, the compression step and the working-directory removal. -/
def postCopyOps {α : Type} (isArt : α → Bool) (e : Experiment α) (root ts : String)
    (fs : FS) (avail : Nat) : List FSOp :=
  let experiment_path := pjoin (pjoin root "all_experiments") e.uuid
  let targz := experiment_path ++ ".tar.gz"
  [FSOp.ensureDir (pjoin experiment_path "output_files")]
  ++ outputOps e fs (pjoin experiment_path "output_files")
      (pjoin root "experiments_by_output_file") targz ts
  ++ [FSOp.writeInputIndex (pjoin experiment_path "input_files.pickle")
        (inputIndexEntries e fs avail)]
  ++ inputSymlinkOps e (pjoin root "experiments_by_input_file") targz ts
  ++ [FSOp.ensureDir (pjoin experiment_path "extra_keys")]
  ++ extraKeyOps isArt e (pjoin experiment_path "extra_keys")
  ++ [FSOp.makeTarGz experiment_path targz,
      FSOp.removeTree experiment_path]

/-- The archival operations actually performed for a content-bearing
experiment, in source order. `shutil.copyfile` raises `FileNotFoundError`
when its source does not exist, so a missing capture file aborts the trace
at that copy: nothing after the failing copy runs (this is what every true
re-entrant call hits, because `_cleanup` of a completed finalization deleted
both capture files). `root` is `$LOGRUN_ROOT`, `ts` the formatted
`start_datetime`, `avail` the available memory consulted by `eval_checksum`. -/
def archOps {α : Type} (isArt : α → Bool) (e : Experiment α) (root ts : String) (fs : FS)
    (avail : Nat) : List FSOp :=
  let experiment_path := pjoin (pjoin root "all_experiments") e.uuid
  preCopyOps e root
  ++ (if fsExists fs e.stdout_file = false then []
      else [FSOp.copyFile e.stdout_file (pjoin experiment_path "stdout.out")]
        ++ (if fsExists fs e.stderr_file = false then []
            else [FSOp.copyFile e.stderr_file (pjoin experiment_path "stderr.out")]
              ++ postCopyOps isArt e root ts fs avail))

/-- Failure of `save_experiment`: the `OSError` for a missing `$LOGRUN_ROOT`,
or the `FileNotFoundError` of `shutil.copyfile` on a missing capture file;
the latter records the operations performed before the abort (the exception
propagates, so `_cleanup` does not run on that path). -/
inductive SaveError where
  | missingLogrunRoot
  | fileNotFound (src : String) (performed : List FSOp)
deriving DecidableEq

/-- `Experiment.save_experiment`: a no-content experiment only cleans up its
capture files; otherwise a missing `$LOGRUN_ROOT` raises `OSError` before any
work; otherwise the archival operations run — aborting with
`FileNotFoundError` at the first capture-file copy whose source is missing —
and, on success only, `_cleanup` follows. The in-memory experiment state is
never mutated (there is no completion flag). -/
def save_experiment {α : Type} (isArt : α → Bool) (e : Experiment α)
    (env_root : Option String) (ts : String) (fs : FS) (avail : Nat) :
    Except SaveError (List FSOp) :=
  if e.has_content = false then Except.ok (cleanupOps e fs)
  else
    match env_root with
    | none => Except.error SaveError.missingLogrunRoot
    | some root =>
      if fsExists fs e.stdout_file = false then
        Except.error (SaveError.fileNotFound e.stdout_file
          (archOps isArt e root ts fs avail))
      else if fsExists fs e.stderr_file = false then
        Except.error (SaveError.fileNotFound e.stderr_file
          (archOps isArt e root ts fs avail))
      else Except.ok (archOps isArt e root ts fs avail ++ cleanupOps e fs)

end Logrun

namespace Exlog

/-- Failure of the `exlog` `Experiment.__init__`. -/
inductive InitError where
  | missingExlogRoot
deriving DecidableEq

/-- The `Experiment` aggregate of `src/exlog/internals.py`; identical to the
`logrun` one except that the archive root is resolved at construction. -/
structure Experiment (α : Type) where
  uuid : String
  rootpath : String
  has_content : Bool
  output_files : List String
  input_files : List String
  extra_keys : List (String × Logrun.PVal α)
  multiple : String → Bool
  stdout_file : String
  stderr_file : String

/-- `Experiment.__init__` of the `exlog` variant: `$EXLOG_ROOT` is read at
construction and its absence raises `OSError` before anything else runs. -/
def experiment_init (α : Type) (env_root : Option String) (u so se : String) :
    Except InitError (Experiment α) :=
  match env_root with
  | none => Except.error InitError.missingExlogRoot
  | some root =>
      Except.ok
        { uuid := u, rootpath := root, has_content := false, output_files := [],
          input_files := [], extra_keys := [], multiple := fun _ => false,
          stdout_file := so, stderr_file := se }

end Exlog

open Logrun

theorem dictLookup_dictSet {β : Type} (d : List (String × β)) (k k' : String) (v : β) :
    dictLookup (dictSet d k v) k' = if k' = k then some v else dictLookup d k' := by
  induction d with
  | nil => simp [dictSet, dictLookup]
  | cons p d ih =>
    obtain ⟨a, b⟩ := p
    by_cases hak : a = k
    · subst hak
      simp only [dictSet, if_pos rfl]
      by_cases hk : k' = a
      · subst hk; simp [dictLookup]
      · simp [dictLookup, hk]
    · simp only [dictSet, if_neg hak]
      by_cases hk : k' = a
      · subst hk
        have : ¬ (k' = k) := fun h => hak (h ▸ rfl)
        simp [dictLookup, this]
      · simp [dictLookup, hk, ih]

theorem fupd_self (f : String → Bool) (k : String) (b : Bool) : fupd f k b k = b := by
  simp [fupd]

theorem fupd_other (f : String → Bool) (k k' : String) (b : Bool) (h : k' ≠ k) :
    fupd f k b k' = f k' := by
  simp [fupd, h]

theorem keyState_snd {α : Type} (vs : List (PVal α)) :
    (keyState vs).2 = decide (2 ≤ vs.length) := by
  match vs with
  | [] => rfl
  | [v] => rfl
  | v1 :: v2 :: vs => simp [keyState]

theorem add_extra_key_other {α : Type} (s : Experiment α) (k k' : String) (v : PVal α)
    (ow : Bool) (h : k ≠ k') :
    dictLookup (s.add_extra_key k' v ow).extra_keys k = dictLookup s.extra_keys k ∧
    (s.add_extra_key k' v ow).multiple k = s.multiple k := by
  unfold Experiment.add_extra_key
  cases hl : dictLookup s.extra_keys k' with
  | none => simp [hl, dictLookup_dictSet, fupd, h]
  | some old =>
    cases ow with
    | true => simp [hl, dictLookup_dictSet, fupd, h]
    | false =>
      cases hm : s.multiple k' with
      | false => simp [hl, hm, dictLookup_dictSet, fupd, h]
      | true =>
        cases old with
        | base a => simp [hl, hm]
        | plist xs => simp [hl, hm, dictLookup_dictSet, h]

theorem add_extra_key_same {α : Type} (s : Experiment α) (k : String) (vs : List (PVal α))
    (v : PVal α) (h1 : dictLookup s.extra_keys k = (keyState vs).1)
    (h2 : s.multiple k = (keyState vs).2) :
    dictLookup (s.add_extra_key k v false).extra_keys k = (keyState (vs ++ [v])).1 ∧
    (s.add_extra_key k v false).multiple k = (keyState (vs ++ [v])).2 := by
  match vs with
  | [] =>
    simp only [keyState] at h1 h2
    simp [Experiment.add_extra_key, h1, keyState, dictLookup_dictSet, fupd_self]
  | [v1] =>
    simp only [keyState] at h1 h2
    simp [Experiment.add_extra_key, h1, h2, keyState, dictLookup_dictSet, fupd_self]
  | v1 :: v2 :: t =>
    simp only [keyState] at h1 h2
    simp [Experiment.add_extra_key, h1, h2, keyState, dictLookup_dictSet, fupd_self]

theorem runCalls_char {α : Type} (k : String) (cs : List (ExtraCall α)) :
    ∀ (s : Experiment α) (vs : List (PVal α)), (∀ c ∈ cs, c.overwrite = false) →
    dictLookup s.extra_keys k = (keyState vs).1 →
    s.multiple k = (keyState vs).2 →
    dictLookup (runCalls s cs).extra_keys k = (keyState (vs ++ keyVals k cs)).1 ∧
    (runCalls s cs).multiple k = (keyState (vs ++ keyVals k cs)).2 ∧
    transCount k s cs
      = if 2 ≤ vs.length then 0
        else if 2 ≤ vs.length + (keyVals k cs).length then 1 else 0 := by
  induction cs with
  | nil =>
    intro s vs _ h1 h2
    refine ⟨by simpa [runCalls, keyVals] using h1, by simpa [runCalls, keyVals] using h2, ?_⟩
    simp only [transCount, keyVals, List.length_nil, Nat.add_zero]
    split <;> simp_all
  | cons c cs ih =>
    intro s vs hall h1 h2
    have how : c.overwrite = false := hall c (List.mem_cons_self c cs)
    by_cases hk : c.key = k
    · subst hk
      have hstep := add_extra_key_same s c.key vs c.value h1 h2
      have hrest := ih (s.add_extra_key c.key c.value false) (vs ++ [c.value])
        (fun d hd => hall d (List.mem_cons_of_mem c hd)) hstep.1 hstep.2
      have hrun : runCalls s (c :: cs)
          = runCalls (s.add_extra_key c.key c.value c.overwrite) cs := rfl
      have hkv : keyVals c.key (c :: cs) = c.value :: keyVals c.key cs := by
        simp [keyVals]
      have htc : transCount c.key s (c :: cs)
          = (if s.multiple c.key = false ∧
                (s.add_extra_key c.key c.value c.overwrite).multiple c.key = true
              then 1 else 0)
            + transCount c.key (s.add_extra_key c.key c.value c.overwrite) cs := rfl
      rw [hrun, hkv, htc, how]
      refine ⟨by simpa [List.append_assoc] using hrest.1,
        by simpa [List.append_assoc] using hrest.2.1, ?_⟩
      rw [hrest.2.2, h2, keyState_snd, hstep.2, keyState_snd]
      have hl1 : (vs ++ [c.value]).length = vs.length + 1 := by simp
      rw [hl1]
      have hl2 : (c.value :: keyVals c.key cs).length = (keyVals c.key cs).length + 1 := rfl
      rw [hl2]
      split_ifs <;> first | omega | simp_all
    · have hne : k ≠ c.key := fun he => hk he.symm
      have hstep := add_extra_key_other s k c.key c.value c.overwrite hne
      have hrest := ih (s.add_extra_key c.key c.value c.overwrite) vs
        (fun d hd => hall d (List.mem_cons_of_mem c hd))
        (hstep.1.trans h1) (hstep.2.trans h2)
      simp only [runCalls, transCount, keyVals, if_neg hk]
      refine ⟨hrest.1, hrest.2.1, ?_⟩
      rw [hrest.2.2, hstep.2]
      have hcontra : ¬ (s.multiple k = false ∧ s.multiple k = true) := by
        intro hab
        rw [hab.1] at hab
        exact Bool.false_ne_true hab.2
      simp [hcontra]

/-- C1: on a fresh key `k`, `add_extra_key k v1` stores the scalar `v1` with
`multiple[k] = false`; a second call with `overwrite = false` stores the ordered
pair `[v1, v2]` with `multiple[k] = true`; a third such call yields
`[v1, v2, v3]`; and a subsequent call with `overwrite = true` replaces the
stored value with the new scalar and resets `multiple[k] = false`. -/
theorem C1_extra_key_accumulation {α : Type} (s : Experiment α) (k : String)
    (v1 v2 v3 v4 : PVal α) (h : dictLookup s.extra_keys k = none) :
    (dictLookup (s.add_extra_key k v1).extra_keys k = some v1 ∧
      (s.add_extra_key k v1).multiple k = false) ∧
    (dictLookup ((s.add_extra_key k v1).add_extra_key k v2 false).extra_keys k
        = some (PVal.plist [v1, v2]) ∧
      ((s.add_extra_key k v1).add_extra_key k v2 false).multiple k = true) ∧
    (dictLookup (((s.add_extra_key k v1).add_extra_key k v2 false).add_extra_key k v3
          false).extra_keys k = some (PVal.plist [v1, v2, v3]) ∧
      (((s.add_extra_key k v1).add_extra_key k v2 false).add_extra_key k v3
          false).multiple k = true) ∧
    (dictLookup ((((s.add_extra_key k v1).add_extra_key k v2 false).add_extra_key k v3
          false).add_extra_key k v4 true).extra_keys k = some v4 ∧
      ((((s.add_extra_key k v1).add_extra_key k v2 false).add_extra_key k v3
          false).add_extra_key k v4 true).multiple k = false) := by
  simp [Experiment.add_extra_key, h, dictLookup_dictSet, fupd_self]

/-- C4 counterexample: the claim quantifies over arbitrary `add_extra_key`
call sequences, but a call with `overwrite = true` resets `multiple[k]` to
`false`, after which a later pair of non-overwriting calls flips it to `true`
a second time. On the concrete sequence
`[(k,false), (k,false), (k,true), (k,false), (k,false)]` the key transitions
from single to multiple mode twice, not exactly once. -/
theorem C4_transition_counterexample :
    ¬ (transCount "k" (Experiment.init Unit "u" "so" "se")
        [⟨"k", PVal.base (), false⟩, ⟨"k", PVal.base (), false⟩,
          ⟨"k", PVal.base (), true⟩, ⟨"k", PVal.base (), false⟩,
          ⟨"k", PVal.base (), false⟩] ≤ 1) := by
  decide

/-- C4 (amended): over any sequence of `add_extra_key` calls all made with
`overwrite = false`, key `k` transitions from single to multiple mode exactly
once, on the second registration of `k` (never, if `k` is registered fewer
than twice), and every further registration appends, so the final stored
value for `k` is the ordered list of all registered values. -/
theorem C4_transition_nonoverwrite {α : Type} (u so se k : String)
    (cs : List (ExtraCall α)) (h : ∀ c ∈ cs, c.overwrite = false) :
    transCount k (Experiment.init α u so se) cs
      = (if 2 ≤ (keyVals k cs).length then 1 else 0) ∧
    dictLookup (runCalls (Experiment.init α u so se) cs).extra_keys k
      = (keyState (keyVals k cs)).1 ∧
    (runCalls (Experiment.init α u so se) cs).multiple k
      = decide (2 ≤ (keyVals k cs).length) := by
  have h0 : dictLookup (Experiment.init α u so se).extra_keys k
      = (keyState ([] : List (PVal α))).1 := rfl
  have h0m : (Experiment.init α u so se).multiple k
      = (keyState ([] : List (PVal α))).2 := rfl
  have hmain := runCalls_char k cs (Experiment.init α u so se) [] h h0 h0m
  refine ⟨?_, by simpa using hmain.1, by simpa [keyState_snd] using hmain.2.1⟩
  rw [hmain.2.2]
  simp

/-- Witness for C4 (amended) on three non-overwriting registrations of one
key: exactly one transition, and the stored value is the three-element list. -/
theorem C4_transition_nonoverwrite_witness :
    (∀ c ∈ ([⟨"k", PVal.base (), false⟩, ⟨"k", PVal.base (), false⟩,
        ⟨"k", PVal.base (), false⟩] : List (ExtraCall Unit)), c.overwrite = false) ∧
    transCount "k" (Experiment.init Unit "u" "so" "se")
        [⟨"k", PVal.base (), false⟩, ⟨"k", PVal.base (), false⟩,
          ⟨"k", PVal.base (), false⟩]
      = (if 2 ≤ (keyVals "k" ([⟨"k", PVal.base (), false⟩, ⟨"k", PVal.base (), false⟩,
          ⟨"k", PVal.base (), false⟩] : List (ExtraCall Unit))).length then 1 else 0) :=
  ⟨by decide,
    (C4_transition_nonoverwrite "u" "so" "se" "k"
      [⟨"k", PVal.base (), false⟩, ⟨"k", PVal.base (), false⟩,
        ⟨"k", PVal.base (), false⟩] (by decide)).1⟩

/-- Witness for C1 at a concrete fresh experiment and key. -/
theorem C1_extra_key_accumulation_witness :
    dictLookup (Experiment.init Unit "u" "so" "se").extra_keys "k" = none ∧
    (dictLookup (((Experiment.init Unit "u" "so" "se").add_extra_key "k"
        (PVal.base ())).add_extra_key "k" (PVal.base ()) false).extra_keys "k"
      = some (PVal.plist [PVal.base (), PVal.base ()]) ∧
      (((Experiment.init Unit "u" "so" "se").add_extra_key "k"
        (PVal.base ())).add_extra_key "k" (PVal.base ()) false).multiple "k" = true) :=
  ⟨rfl, (C1_extra_key_accumulation (Experiment.init Unit "u" "so" "se") "k"
      (PVal.base ()) (PVal.base ()) (PVal.base ()) (PVal.base ()) rfl).2.1⟩

theorem HashState.update_nil (st : HashState) : st.update [] = st := by
  cases st
  simp [HashState.update]

theorem HashState.update_update (st : HashState) (a b : List UInt8) :
    (st.update a).update b = st.update (a ++ b) := by
  simp [HashState.update]

theorem updateChunks_correct (c : Nat) (hc : 0 < c) :
    ∀ (fuel : Nat) (content : List UInt8) (st : HashState),
      content.length < fuel → updateChunks c fuel content st = st.update content := by
  intro fuel
  induction fuel with
  | zero => intro content st h; omega
  | succ fuel ih =>
    intro content st h
    by_cases hnil : content.take c = []
    · have : content = [] := by
        rcases List.take_eq_nil_iff.mp hnil with h0 | h0
        · omega
        · exact h0
      subst this
      simp [updateChunks, HashState.update_nil]
    · have hcontent : content ≠ [] := by
        intro h0
        subst h0
        simp at hnil
      have hlen : (content.drop c).length < fuel := by
        have : 0 < content.length := List.length_pos.mpr hcontent
        simp only [List.length_drop]
        omega
      calc updateChunks c (fuel + 1) content st
          = updateChunks c fuel (content.drop c) (st.update (content.take c)) := by
            simp [updateChunks, hnil]
        _ = (st.update (content.take c)).update (content.drop c) := ih _ _ hlen
        _ = st.update (content.take c ++ content.drop c) := HashState.update_update ..
        _ = st.update content := by rw [List.take_append_drop]

/-- C6: the Content Identity Evaluator takes the single whole-file-read branch
exactly when `10 * filesize ≤ available_memory`, and otherwise streams the
file in chunks of `max(available_memory // 10, block_size)` bytes; in both
branches the resulting hash state has absorbed exactly the file's complete
byte content, so the digest equals the digest of the complete content. -/
theorem C6_file_read_strategy (content : List UInt8) (avail : Nat) (st : HashState) :
    (evalFileBytes content avail st).2 = decide (10 * content.length ≤ avail) ∧
    (evalFileBytes content avail st).1 = st.update content := by
  unfold evalFileBytes
  by_cases h : 10 * content.length ≤ avail
  · simp [h]
  · have hc : 0 < max (avail / 10) block_size :=
      lt_of_lt_of_le (by norm_num [block_size]) (le_max_right _ _)
    simp [h, updateChunks_correct _ hc _ content st (Nat.lt_succ_self _)]

/-- C7 (code bug): `eval_checksum` folds directory children in raw
`os.listdir` order and never absorbs child names, so two directory states
with identical recursive (name, content) pairs — one listing being a
permutation of the other — produce different absorbed byte streams, hence
different digests. The spec itself flags the unsorted fold as a latent
nondeterminism bug. -/
theorem C7_listing_order_dependence :
    (([("b", FTree.file [1]), ("a", FTree.file [0])] : List (String × FTree)).Perm
        [("a", FTree.file [0]), ("b", FTree.file [1])]) ∧
    eval_checksum 1000 (some (FTree.dir [("a", FTree.file [0]), ("b", FTree.file [1])]))
      ≠ eval_checksum 1000 (some (FTree.dir [("b", FTree.file [1]), ("a", FTree.file [0])])) := by
  refine ⟨List.Perm.swap _ _ _, ?_⟩
  simp [eval_checksum, evalTree, evalChildren, evalFileBytes, HashState.update,
    HashState.hexdigest]

/-- C2 counterexample: `save_experiment` carries no idempotency flag and
never mutates the experiment state (`has_content` stays `true`), so invoking
it again on the very state a completed finalization left behind — with the
filesystem as the first call left it, capture files already removed by
`_cleanup` — is not a no-op: the re-entrant call re-enters the archival
path, re-creating the directories, re-snapshotting the sources and
rewriting `meta.pickle`, and then aborts with `FileNotFoundError` at the
capture-file copy instead of returning silently. -/
theorem C2_reentrant_counterexample :
    save_experiment (fun _ => false)
        ((Experiment.init Unit "u" "so" "se").add_extra_key "k" (PVal.base ()))
        (some "root") "ts" (fun _ => none) 1000
      = Except.error (SaveError.fileNotFound "so"
          (preCopyOps ((Experiment.init Unit "u" "so" "se").add_extra_key "k"
            (PVal.base ())) "root")) ∧
    FSOp.writeMeta (pjoin (pjoin (pjoin "root" "all_experiments") "u") "meta.pickle")
      ∈ preCopyOps ((Experiment.init Unit "u" "so" "se").add_extra_key "k"
          (PVal.base ())) "root" ∧
    FSOp.snapshotSources (pjoin (pjoin (pjoin "root" "all_experiments") "u") "source")
      ∈ preCopyOps ((Experiment.init Unit "u" "so" "se").add_extra_key "k"
          (PVal.base ())) "root" := by
  refine ⟨rfl, ?_, ?_⟩ <;> decide

/-- C2 (amended): `save_experiment` has no idempotency flag and never mutates
the experiment state. With content and the root configured, a call whose
capture files exist performs the full archival trace (tar-creation step
included) followed by cleanup; a re-entrant call after such a completed
finalization — whose cleanup deleted the capture files — is still not a
no-op: it performs the pre-copy archival work again (directory creation,
source snapshot, metadata write) and then raises `FileNotFoundError` at the
capture-file copy, never reaching the tar step. Repeated calls are no-ops
only for a no-content experiment; finalize completes once in practice only
because the process-exit hook invokes it once. -/
theorem C2_no_idempotency_flag {α : Type} (isArt : α → Bool) (e : Experiment α)
    (root ts : String) (fs fs' : FS) (avail : Nat)
    (h : e.has_content = true)
    (hso : fsExists fs e.stdout_file = true)
    (hse : fsExists fs e.stderr_file = true)
    (habs : fsExists fs' e.stdout_file = false) :
    save_experiment isArt e (some root) ts fs avail
      = Except.ok (archOps isArt e root ts fs avail ++ cleanupOps e fs) ∧
    FSOp.makeTarGz (pjoin (pjoin root "all_experiments") e.uuid)
        (pjoin (pjoin root "all_experiments") e.uuid ++ ".tar.gz")
      ∈ archOps isArt e root ts fs avail ∧
    save_experiment isArt e (some root) ts fs' avail
      = Except.error (SaveError.fileNotFound e.stdout_file (preCopyOps e root)) ∧
    archOps isArt e root ts fs' avail = preCopyOps e root ∧
    FSOp.writeMeta (pjoin (pjoin (pjoin root "all_experiments") e.uuid) "meta.pickle")
      ∈ preCopyOps e root := by
  refine ⟨?_, ?_, ?_, ?_, ?_⟩
  · simp [save_experiment, h, hso, hse]
  · simp [archOps, postCopyOps, hso, hse]
  · simp [save_experiment, archOps, h, habs]
  · simp [archOps, habs]
  · simp [preCopyOps]

/-- Witness for C2 (amended): a concrete content-bearing experiment, a
filesystem where its capture files exist, and the post-cleanup filesystem
where they do not. -/
theorem C2_no_idempotency_flag_witness :
    ((Experiment.init Unit "u" "so" "se").add_output_file "f").has_content = true ∧
    fsExists (fun _ => some (FTree.file []))
        ((Experiment.init Unit "u" "so" "se").add_output_file "f").stdout_file = true ∧
    fsExists (fun _ => none)
        ((Experiment.init Unit "u" "so" "se").add_output_file "f").stdout_file = false ∧
    save_experiment (fun _ => false)
        ((Experiment.init Unit "u" "so" "se").add_output_file "f")
        (some "root") "ts" (fun _ => none) 1000
      = Except.error (SaveError.fileNotFound "so"
          (preCopyOps ((Experiment.init Unit "u" "so" "se").add_output_file "f") "root")) :=
  ⟨rfl, rfl, rfl,
    (C2_no_idempotency_flag (fun _ => false)
      ((Experiment.init Unit "u" "so" "se").add_output_file "f")
      "root" "ts" (fun _ => some (FTree.file [])) (fun _ => none) 1000
      rfl rfl rfl rfl).2.2.1⟩

/-- C3 counterexample: in the `logrun` variant the archive root is not
consulted at construction. With `$LOGRUN_ROOT` entirely absent, construction
succeeds and run logic executes — a registration flips `has_content` and is
stored — and the missing root only becomes fatal later, inside
`save_experiment`. -/
theorem C3_construction_counterexample :
    ((Experiment.init Unit "u" "so" "se").add_extra_key "k" (PVal.base ())).has_content
        = true ∧
    dictLookup ((Experiment.init Unit "u" "so" "se").add_extra_key "k"
        (PVal.base ())).extra_keys "k" = some (PVal.base ()) ∧
    save_experiment (fun _ => false)
        ((Experiment.init Unit "u" "so" "se").add_extra_key "k" (PVal.base ()))
        none "ts" (fun _ => none) 1000
      = Except.error SaveError.missingLogrunRoot :=
  ⟨rfl, rfl, rfl⟩

/-- C3 (amended): absence of the configured archive root is fatal before any
archival work, but where it strikes differs by variant: the `exlog`
constructor raises immediately, before any run logic, while the `logrun`
constructor never consults the root, registration and capture proceed, and
the absence is fatal only in `save_experiment`, which errors before
performing any archival operation whenever the experiment has content. -/
theorem C3_root_absence_fatal {α : Type} (isArt : α → Bool) (e : Experiment α)
    (ts : String) (fs : FS) (avail : Nat) (u so se : String)
    (h : e.has_content = true) :
    save_experiment isArt e none ts fs avail
        = Except.error SaveError.missingLogrunRoot ∧
    Exlog.experiment_init α none u so se = Except.error Exlog.InitError.missingExlogRoot :=
  ⟨by simp [save_experiment, h], rfl⟩

/-- Witness for C3 (amended) at a concrete content-bearing experiment. -/
theorem C3_root_absence_fatal_witness :
    ((Experiment.init Unit "u" "so" "se").add_input_file "in").has_content = true ∧
    save_experiment (fun _ => false)
        ((Experiment.init Unit "u" "so" "se").add_input_file "in")
        none "ts" (fun _ => none) 1000
      = Except.error SaveError.missingLogrunRoot :=
  ⟨rfl,
    (C3_root_absence_fatal (fun _ => false)
      ((Experiment.init Unit "u" "so" "se").add_input_file "in")
      "ts" (fun _ => none) 1000 "u" "so" "se" rfl).1⟩

/-- C5: when `has_content` is false at finalize, `save_experiment` produces
no archive and no index entries: the result is exactly the `_cleanup` trace,
and every operation in that trace is the removal of one of the two capture
files. -/
theorem C5_no_content_cleanup_only {α : Type} (isArt : α → Bool) (e : Experiment α)
    (env_root : Option String) (ts : String) (fs : FS) (avail : Nat)
    (h : e.has_content = false) :
    save_experiment isArt e env_root ts fs avail = Except.ok (cleanupOps e fs) ∧
    ∀ op ∈ cleanupOps e fs,
      op = FSOp.removeFile e.stdout_file ∨ op = FSOp.removeFile e.stderr_file := by
  refine ⟨by simp [save_experiment, h], ?_⟩
  intro op hop
  unfold cleanupOps at hop
  rcases List.mem_append.mp hop with h1 | h1
  · by_cases hx : fsExists fs e.stdout_file = true
    · rw [if_pos hx] at h1
      exact Or.inl (List.mem_singleton.mp h1)
    · rw [if_neg hx] at h1
      exact absurd h1 (List.not_mem_nil op)
  · by_cases hx : fsExists fs e.stderr_file = true
    · rw [if_pos hx] at h1
      exact Or.inr (List.mem_singleton.mp h1)
    · rw [if_neg hx] at h1
      exact absurd h1 (List.not_mem_nil op)

/-- Witness for C5 at a fresh experiment whose capture files exist. -/
theorem C5_no_content_cleanup_only_witness :
    (Experiment.init Unit "u" "so" "se").has_content = false ∧
    save_experiment (fun _ => false) (Experiment.init Unit "u" "so" "se")
        (some "root") "ts" (fun _ => some (FTree.file [])) 1000
      = Except.ok (cleanupOps (Experiment.init Unit "u" "so" "se")
          (fun _ => some (FTree.file []))) :=
  ⟨rfl,
    (C5_no_content_cleanup_only (fun _ => false) (Experiment.init Unit "u" "so" "se")
      (some "root") "ts" (fun _ => some (FTree.file [])) 1000 rfl).1⟩

theorem warn_not_mem_inputSymlinkOps {α : Type} (e : Experiment α)
    (by_in targz ts q : String) :
    FSOp.warnMissingOutput q ∉ inputSymlinkOps e by_in targz ts := by
  intro h
  rcases List.mem_flatMap.mp h with ⟨p, _, hin⟩
  simp at hin

theorem warn_not_mem_extraKeyOps {α : Type} (isArt : α → Bool) (e : Experiment α)
    (ek q : String) :
    FSOp.warnMissingOutput q ∉ extraKeyOps isArt e ek := by
  intro h
  rcases List.mem_flatMap.mp h with ⟨bv, _, hin⟩
  rcases List.mem_flatMap.mp hin with ⟨nv, _, hin2⟩
  split at hin2 <;> simp at hin2

theorem warn_mem_outputOps {α : Type} (e : Experiment α) (fs : FS)
    (out_path by_out targz ts q : String)
    (h : FSOp.warnMissingOutput q ∈ outputOps e fs out_path by_out targz ts) :
    q ∈ e.output_files := by
  rcases List.mem_flatMap.mp h with ⟨f, hf, hin⟩
  split at hin
  · rcases List.mem_singleton.mp hin with h
    injection h with h
    exact h ▸ hf
  · simp at hin

/-- C10: a path that is neither an existing regular file nor an existing
directory skips both branches of `eval_checksum`; with a fresh state and
`digest=True` no error is raised and the digest of the never-updated hash
state is returned. Consequently a declared input file missing at finalize is
silently recorded in the input-checksum index with the empty-content digest:
every warning in the whole finalize trace concerns an output file, never an
input. -/
theorem C10_missing_input_silent {α : Type} (isArt : α → Bool) (e : Experiment α)
    (root ts : String) (fs : FS) (avail : Nat) (p : String)
    (h1 : fs p = none) (h2 : p ∈ e.input_files) :
    eval_checksum avail (fs p) = HashState.hexdigest ⟨[]⟩ ∧
    (p, HashState.hexdigest (⟨[]⟩ : HashState)) ∈ inputIndexEntries e fs avail ∧
    ∀ q, FSOp.warnMissingOutput q ∈ archOps isArt e root ts fs avail →
      q ∈ e.output_files := by
  refine ⟨by rw [h1]; rfl, ?_, ?_⟩
  · unfold inputIndexEntries
    refine List.mem_map.mpr ⟨p, h2, ?_⟩
    rw [h1]
    rfl
  · intro q hq
    simp only [archOps] at hq
    rcases List.mem_append.mp hq with hpre | hmid
    · simp [preCopyOps] at hpre
    · by_cases hso : fsExists fs e.stdout_file = false
      · rw [if_pos hso] at hmid
        exact absurd hmid (List.not_mem_nil _)
      · rw [if_neg hso] at hmid
        rcases List.mem_append.mp hmid with hcp | hmid2
        · simp at hcp
        · by_cases hse : fsExists fs e.stderr_file = false
          · rw [if_pos hse] at hmid2
            exact absurd hmid2 (List.not_mem_nil _)
          · rw [if_neg hse] at hmid2
            rcases List.mem_append.mp hmid2 with hcp2 | hrest
            · simp at hcp2
            · simp only [postCopyOps] at hrest
              simp [warn_not_mem_inputSymlinkOps, warn_not_mem_extraKeyOps] at hrest
              exact warn_mem_outputOps _ _ _ _ _ _ _ hrest

/-- Witness for C10 at a concrete experiment with one missing declared input. -/
theorem C10_missing_input_silent_witness :
    ((fun _ => none : FS) "in" = none) ∧
    ("in" ∈ ((Experiment.init Unit "u" "so" "se").add_input_file "in").input_files) ∧
    ("in", HashState.hexdigest (⟨[]⟩ : HashState))
      ∈ inputIndexEntries ((Experiment.init Unit "u" "so" "se").add_input_file "in")
          (fun _ => none) 1000 :=
  ⟨rfl, by decide,
    (C10_missing_input_silent (fun _ => false)
      ((Experiment.init Unit "u" "so" "se").add_input_file "in")
      "root" "ts" (fun _ => none) 1000 "in" rfl (by decide)).2.1⟩

theorem escape_char_map_inj :
    ∀ (a b : List Char), '%' ∉ a → '%' ∉ b →
      a.map (fun ch => if ch = '/' then '%' else ch)
        = b.map (fun ch => if ch = '/' then '%' else ch) → a = b := by
  intro a
  induction a with
  | nil =>
    intro b _ _ h
    cases b with
    | nil => rfl
    | cons d ds => simp at h
  | cons c cs ih =>
    intro b hca hcb h
    cases b with
    | nil => simp at h
    | cons d ds =>
      simp only [List.map_cons, List.cons.injEq] at h
      have hc : c ≠ '%' := fun he => hca (he ▸ List.mem_cons_self c cs)
      have hd : d ≠ '%' := fun he => hcb (he ▸ List.mem_cons_self d ds)
      have hcs : '%' ∉ cs := fun he => hca (List.mem_cons_of_mem c he)
      have hds : '%' ∉ ds := fun he => hcb (List.mem_cons_of_mem d he)
      have hhead : c = d := by
        by_cases h1 : c = '/'
        · by_cases h2 : d = '/'
          · rw [h1, h2]
          · rw [if_pos h1, if_neg h2] at h
            exact absurd h.1.symm hd
        · by_cases h2 : d = '/'
          · rw [if_neg h1, if_pos h2] at h
            exact absurd h.1 hc
          · rw [if_neg h1, if_neg h2] at h
            exact h.1
      rw [hhead, ih ds hcs hds h.2]

/-- C8 counterexample: the escaping replaces each `/` by `%` but leaves
pre-existing `%` characters alone, so the two distinct paths `a/b` and `a%b`
collide on the same flat filename `a%b`. -/
theorem C8_escaping_counterexample :
    ("a/b" : String) ≠ "a%b" ∧ escapeSep "a/b" = escapeSep "a%b" := by
  constructor
  · decide
  · rfl

/-- C8 (amended): the path-to-filename escaping is injective on paths free of
the escape character `%`: any two distinct such paths receive distinct flat
filenames. (Paths already containing `%` can collide with escaped
separators.) -/
theorem C8_escape_injective_percent_free (s t : String)
    (hs : '%' ∉ s.data) (ht : '%' ∉ t.data) (h : escapeSep s = escapeSep t) :
    s = t := by
  have hdata : s.data.map (fun ch => if ch = '/' then '%' else ch)
      = t.data.map (fun ch => if ch = '/' then '%' else ch) := congrArg String.data h
  cases s with
  | mk ls =>
    cases t with
    | mk lt =>
      exact congrArg String.mk (escape_char_map_inj ls lt hs ht hdata)

/-- Witness for C8 (amended) at a concrete `%`-free path. -/
theorem C8_escape_injective_percent_free_witness :
    ('%' ∉ ("a/b" : String).data) ∧ ("a/b" : String) = "a/b" :=
  ⟨by decide, C8_escape_injective_percent_free "a/b" "a/b" (by decide) (by decide) rfl⟩

theorem decChars_eq (n : Nat) :
    decChars n = if n < 10 then [Nat.digitChar n]
      else decChars (n / 10) ++ [Nat.digitChar (n % 10)] := by
  rw [decChars]

theorem digitVal_digitChar {d : Nat} (h : d < 10) : digitVal (Nat.digitChar d) = d := by
  have hall : ∀ x : Fin 10, digitVal (Nat.digitChar x.val) = x.val := by decide
  exact hall ⟨d, h⟩

theorem digitChar_lt_digitChar {a b : Nat} (ha : a < 10) (hb : b < 10) (h : a < b) :
    Nat.digitChar a < Nat.digitChar b := by
  have hall : ∀ x y : Fin 10, x.val < y.val → Nat.digitChar x.val < Nat.digitChar y.val := by
    decide
  exact hall ⟨a, ha⟩ ⟨b, hb⟩ h

theorem isDigitCh_digitChar {d : Nat} (h : d < 10) : isDigitCh (Nat.digitChar d) :=
  ⟨d, h, rfl⟩

theorem digitVal_le_nine {c : Char} (h : isDigitCh c) : digitVal c ≤ 9 := by
  obtain ⟨d, hd, rfl⟩ := h
  rw [digitVal_digitChar hd]
  omega

theorem decChars_digits (n : Nat) : ∀ c ∈ decChars n, isDigitCh c := by
  induction n using Nat.strong_induction_on with
  | _ n ih =>
    rw [decChars_eq]
    by_cases h10 : n < 10
    · rw [if_pos h10]
      intro c hc
      rw [List.mem_singleton] at hc
      subst hc
      exact isDigitCh_digitChar h10
    · rw [if_neg h10]
      intro c hc
      rcases List.mem_append.mp hc with h | h
      · exact ih (n / 10) (Nat.div_lt_self (by omega) (by omega)) c h
      · rw [List.mem_singleton] at h
        subst h
        exact isDigitCh_digitChar (Nat.mod_lt _ (by omega))

theorem valD_append_last (xs : List Char) (c : Char) :
    valD (xs ++ [c]) = 10 * valD xs + digitVal c := by
  induction xs with
  | nil => simp [valD]
  | cons d ds ih =>
    have hstep : valD ((d :: ds) ++ [c])
        = digitVal d * 10 ^ (ds ++ [c]).length + valD (ds ++ [c]) := rfl
    rw [hstep, ih]
    have hlen : (ds ++ [c]).length = ds.length + 1 := by simp
    have hv : valD (d :: ds) = digitVal d * 10 ^ ds.length + valD ds := rfl
    rw [hlen, pow_succ, hv]
    ring

theorem valD_decChars (n : Nat) : valD (decChars n) = n := by
  induction n using Nat.strong_induction_on with
  | _ n ih =>
    rw [decChars_eq]
    by_cases h10 : n < 10
    · rw [if_pos h10]
      simp [valD, digitVal_digitChar h10]
    · rw [if_neg h10]
      rw [valD_append_last, ih (n / 10) (Nat.div_lt_self (by omega) (by omega)),
        digitVal_digitChar (Nat.mod_lt _ (by omega))]
      omega

theorem valD_lt_pow (ds : List Char) (h : ∀ c ∈ ds, isDigitCh c) :
    valD ds < 10 ^ ds.length := by
  induction ds with
  | nil => simp [valD]
  | cons c cs ih =>
    have h1 : valD cs < 10 ^ cs.length := ih (fun x hx => h x (List.mem_cons_of_mem c hx))
    have h2 : digitVal c ≤ 9 := digitVal_le_nine (h c (List.mem_cons_self c cs))
    have h3 : digitVal c * 10 ^ cs.length ≤ 9 * 10 ^ cs.length :=
      Nat.mul_le_mul_right _ h2
    simp only [valD, List.length_cons, pow_succ]
    omega

theorem valD_replicate_zero (m : Nat) (ds : List Char) :
    valD (List.replicate m '0' ++ ds) = valD ds := by
  induction m with
  | zero => simp
  | succ m ih =>
    have h0 : digitVal '0' = 0 := rfl
    simp [List.replicate_succ, valD, ih, h0]

theorem valD_zeroPad (w : Nat) (ds : List Char) : valD (zeroPad w ds) = valD ds :=
  valD_replicate_zero _ ds

theorem zeroPad_digits (w : Nat) (ds : List Char) (h : ∀ c ∈ ds, isDigitCh c) :
    ∀ c ∈ zeroPad w ds, isDigitCh c := by
  intro c hc
  rcases List.mem_append.mp hc with h1 | h1
  · rw [List.eq_of_mem_replicate h1]
    exact ⟨0, by omega, by decide⟩
  · exact h c h1

theorem zeroPad_length (w : Nat) (ds : List Char) (h : ds.length ≤ w) :
    (zeroPad w ds).length = w := by
  simp [zeroPad]
  omega

theorem decChars_length_mono (a b : Nat) : a ≤ b →
    (decChars a).length ≤ (decChars b).length := by
  induction b using Nat.strong_induction_on generalizing a with
  | _ b ih =>
    intro h
    rw [decChars_eq a, decChars_eq b]
    by_cases hb : b < 10
    · have ha : a < 10 := by omega
      rw [if_pos ha, if_pos hb]
      simp
    · rw [if_neg hb]
      by_cases ha : a < 10
      · rw [if_pos ha]
        simp only [List.length_singleton, List.length_append, List.length_cons,
          List.length_nil]
        omega
      · rw [if_neg ha]
        simp only [List.length_append, List.length_cons, List.length_nil]
        have hrec : (decChars (a / 10)).length ≤ (decChars (b / 10)).length :=
          ih (b / 10) (Nat.div_lt_self (by omega) (by omega)) (a / 10)
            (Nat.div_le_div_right h)
        omega

theorem lex_append_left {r : Char → Char → Prop} (p : List Char) {xs ys : List Char}
    (h : List.Lex r xs ys) : List.Lex r (p ++ xs) (p ++ ys) := by
  induction p with
  | nil => exact h
  | cons c cs ih => exact List.Lex.cons ih

theorem lex_of_valD_lt : ∀ (xs ys : List Char), xs.length = ys.length →
    (∀ c ∈ xs, isDigitCh c) → (∀ c ∈ ys, isDigitCh c) →
    valD xs < valD ys → List.Lex (· < ·) xs ys := by
  intro xs
  induction xs with
  | nil =>
    intro ys hlen _ _ hval
    cases ys with
    | nil => simp [valD] at hval
    | cons d ds => simp at hlen
  | cons c cs ih =>
    intro ys hlen hdx hdy hval
    cases ys with
    | nil => simp at hlen
    | cons d ds =>
      have hlen' : cs.length = ds.length := by simpa using hlen
      have hc : isDigitCh c := hdx c (List.mem_cons_self c cs)
      have hd : isDigitCh d := hdy d (List.mem_cons_self d ds)
      by_cases hcd : c = d
      · subst hcd
        refine List.Lex.cons (ih ds hlen'
          (fun x hx => hdx x (List.mem_cons_of_mem c hx))
          (fun x hx => hdy x (List.mem_cons_of_mem c hx)) ?_)
        simp only [valD, hlen'] at hval
        omega
      · obtain ⟨a, ha, rfl⟩ := hc
        obtain ⟨b, hb, rfl⟩ := hd
        have hvys : valD ds < 10 ^ ds.length :=
          valD_lt_pow ds (fun x hx => hdy x (List.mem_cons_of_mem _ hx))
        have hab : a < b := by
          rcases Nat.lt_trichotomy a b with h1 | h1 | h1
          · exact h1
          · exact absurd (by rw [h1]) hcd
          · exfalso
            have e1 : valD (Nat.digitChar a :: cs)
                = a * 10 ^ cs.length + valD cs := by
              simp [valD, digitVal_digitChar ha]
            have e2 : valD (Nat.digitChar b :: ds)
                = b * 10 ^ ds.length + valD ds := by
              simp [valD, digitVal_digitChar hb]
            rw [e1, e2, ← hlen'] at hval
            have h3 : (b + 1) * 10 ^ cs.length ≤ a * 10 ^ cs.length :=
              Nat.mul_le_mul_right _ (by omega)
            have h4 : valD ds < 10 ^ cs.length := by
              rw [hlen']
              exact hvys
            have h5 : b * 10 ^ cs.length + 10 ^ cs.length ≤ a * 10 ^ cs.length := by
              calc b * 10 ^ cs.length + 10 ^ cs.length
                  = (b + 1) * 10 ^ cs.length := by ring
                _ ≤ a * 10 ^ cs.length := h3
            omega
        exact List.Lex.rel (digitChar_lt_digitChar ha hb hab)

theorem zeroPad_lex {i j n : Nat} (hij : i < j) (hjn : j ≤ n) :
    List.Lex (· < ·) (zeroPad (decChars n).length (decChars i))
      (zeroPad (decChars n).length (decChars j)) := by
  apply lex_of_valD_lt
  · rw [zeroPad_length _ _ (decChars_length_mono i n (by omega)),
      zeroPad_length _ _ (decChars_length_mono j n hjn)]
  · exact zeroPad_digits _ _ (decChars_digits i)
  · exact zeroPad_digits _ _ (decChars_digits j)
  · rw [valD_zeroPad, valD_zeroPad, valD_decChars, valD_decChars]
    exact hij

theorem name_data (base : String) (l : List Char) :
    (base ++ "." ++ String.mk l).data = (base.data ++ ['.']) ++ l := by
  rw [String.data_append, String.data_append]

/-- C9: finalize expands a multiple key with `n` stored elements into exactly
`n` entries, pairing the expanded names with the elements in order; every
name's numeric suffix is zero-padded to width `len(str(n))`; and the entry
names are strictly increasing in lexicographic order, so for every pair of
entries lexicographic order of names agrees with numeric order of the
element indices. -/
theorem C9_multi_key_expansion {α : Type} (e : Experiment α) (base : String)
    (xs : List (PVal α)) (hm : e.multiple base = true) :
    (entryPairs e base (PVal.plist xs)).map Prod.fst = expandKeyNames base xs.length ∧
    (entryPairs e base (PVal.plist xs)).map Prod.snd = xs ∧
    (expandKeyNames base xs.length).length = xs.length ∧
    (∀ k, k < xs.length →
      (zeroPad (decChars xs.length).length (decChars k)).length
        = (decChars xs.length).length) ∧
    (expandKeyNames base xs.length).Pairwise
      (fun a b => List.Lex (· < ·) a.data b.data) := by
  have hlen : (expandKeyNames base xs.length).length = xs.length := by
    simp [expandKeyNames]
  have hpairs : entryPairs e base (PVal.plist xs)
      = (expandKeyNames base xs.length).zip xs := by
    simp [entryPairs, hm]
  refine ⟨?_, ?_, hlen, ?_, ?_⟩
  · rw [hpairs]
    exact List.map_fst_zip _ _ (by rw [hlen])
  · rw [hpairs]
    exact List.map_snd_zip _ _ (by rw [hlen])
  · intro k hk
    exact zeroPad_length _ _ (decChars_length_mono k xs.length (by omega))
  · unfold expandKeyNames
    refine List.pairwise_map.mpr ?_
    refine (List.pairwise_lt_range xs.length).imp_of_mem ?_
    intro i j hi hj hij
    rw [name_data, name_data]
    refine lex_append_left _ (zeroPad_lex hij ?_)
    have hjlt := List.mem_range.mp hj
    omega

/-- Witness for C9 at a concrete two-element multiple key. -/
theorem C9_multi_key_expansion_witness :
    ((⟨"u", true, [], [], [("score", PVal.plist [PVal.base 1, PVal.base 2])],
        fun _ => true, "so", "se"⟩ : Experiment Nat).multiple "score" = true) ∧
    (entryPairs
        (⟨"u", true, [], [], [("score", PVal.plist [PVal.base 1, PVal.base 2])],
          fun _ => true, "so", "se"⟩ : Experiment Nat) "score"
        (PVal.plist [PVal.base 1, PVal.base 2])).map Prod.snd
      = [PVal.base 1, PVal.base 2] :=
  ⟨rfl,
    (C9_multi_key_expansion
      (⟨"u", true, [], [], [("score", PVal.plist [PVal.base 1, PVal.base 2])],
        fun _ => true, "so", "se"⟩ : Experiment Nat) "score"
      [PVal.base 1, PVal.base 2] rfl).2.1⟩
